import Mathlib

/-!
Verification of the custom priority_queue (binary heap) implementation.

The underlying storage container (custom::vector) is modelled as a Lean List;
the comparator is a Bool-valued binary predicate.  All operations are
translated directly from src/priority_queue.h.  Recursive routines whose
C++ originals recurse or loop (percolateDown, the push loop, the repeated
pop used to drain a queue) are given an explicit fuel parameter so that all
definitions are structurally recursive and kernel-computable; fuel
sufficiency (termination of the original recursions) is proved separately.
-/

namespace custom

variable {α : Type} [Inhabited α]

/-- Effect on the storage list of swap(container[i], container[j]):
positions i and j exchange their values, everything else is unchanged.
Out-of-range sets are no-ops, matching the fact that the source only ever
swaps in-bounds positions. -/
def swapIdx (l : List α) (i j : Nat) : List α :=
  (l.set i (l.getD j default)).set j (l.getD i default)

/-- The indexBigger computation at the start of priority_queue::percolateDown:
indexLeft = indexHeap * 2, indexRight = indexLeft + 1, and the right child is
chosen exactly when it exists (indexRight <= size()) and
compare(container[indexLeft-1], container[indexRight-1]) holds; otherwise the
left child index is chosen. 1-based heap indices over 0-based storage. -/
def biggerChild (cmp : α → α → Bool) (l : List α) (indexHeap : Nat) : Nat :=
  let indexLeft := indexHeap * 2
  let indexRight := indexLeft + 1
  if indexRight ≤ l.length &&
      cmp (l.getD (indexLeft - 1) default) (l.getD (indexRight - 1) default)
  then indexRight else indexLeft

/-- priority_queue::percolateDown with an explicit fuel parameter. Returns the
new storage plus the Bool the C++ function returns (true iff a swap happened).
If the chosen child exists (indexBigger <= size()) and the parent compares
below it, parent and child are swapped and percolation continues from the
child position; otherwise nothing changes and false is returned. -/
def percolateDownF (cmp : α → α → Bool) : Nat → List α → Nat → List α × Bool
  | 0, l, _ => (l, false)
  | fuel+1, l, indexHeap =>
    let indexBigger := biggerChild cmp l indexHeap
    if indexBigger ≤ l.length &&
        cmp (l.getD (indexHeap - 1) default) (l.getD (indexBigger - 1) default)
    then ((percolateDownF cmp fuel
            (swapIdx l (indexHeap - 1) (indexBigger - 1)) indexBigger).1, true)
    else (l, false)

/-- percolateDown with the canonical sufficient fuel (the recursion index
strictly increases and is bounded by the size, so size + 1 unfoldings always
suffice; this is proved below). -/
def percolateDown (cmp : α → α → Bool) (l : List α) (indexHeap : Nat) :
    List α × Bool :=
  percolateDownF cmp (l.length + 1) l indexHeap

/-- The heap as defined in src/priority_queue.h: an underlying container and
a comparison predicate. -/
structure priority_queue (α : Type) where
  container : List α
  compare : α → α → Bool

/-- priority_queue::top: the front of the container if non-empty, otherwise
an out-of-range error (the C++ throws std::out_of_range). -/
def top (q : priority_queue α) : Except String α :=
  if !q.container.isEmpty then .ok (q.container.headD default)
  else .error "std:out_of_range"

/-- priority_queue::pop: no-op when empty; otherwise swap the first and last
elements, remove the last, and percolate down from heap index 1. -/
def pop (q : priority_queue α) : priority_queue α :=
  if q.container.isEmpty then q
  else
    let c := (swapIdx q.container 0 (q.container.length - 1)).dropLast
    { container := (percolateDown q.compare c 1).1, compare := q.compare }

/-- The while loop in priority_queue::push:
while (index && percolateDown(index)) index = index / 2.
Fuelled; index + 1 units of fuel always suffice since index halves. -/
def pushLoopF (cmp : α → α → Bool) : Nat → List α → Nat → List α
  | 0, l, _ => l
  | fuel+1, l, index =>
    if index = 0 then l
    else
      let r := percolateDown cmp l index
      if r.2 then pushLoopF cmp fuel r.1 (index / 2) else r.1

/-- priority_queue::push: append the element, then run the ancestor loop
starting at container.size() / 2 (size taken after the append). -/
def push (q : priority_queue α) (t : α) : priority_queue α :=
  let c := q.container ++ [t]
  { container := pushLoopF q.compare (c.length / 2 + 1) c (c.length / 2),
    compare := q.compare }

/-- The for loop in priority_queue::heapify: percolate down at heap indices
num / 2, num / 2 - 1, ..., 1 (the argument is the next index to process). -/
def heapifyDown (cmp : α → α → Bool) : List α → Nat → List α
  | l, 0 => l
  | l, i+1 => heapifyDown cmp (percolateDown cmp l (i+1)).1 i

/-- priority_queue::heapify: bottom-up repair from index size/2 down to 1. -/
def heapify (cmp : α → α → Bool) (l : List α) : List α :=
  heapifyDown cmp l (l.length / 2)

/-- Default constructor: empty container, given comparator. -/
def ctorDefault (c : α → α → Bool) : priority_queue α :=
  { container := [], compare := c }

/-- Copy constructor priority_queue(const priority_queue&, const Compare& c):
copies rhs.container and initialises the comparator with c (which in the C++
defaults to a fresh Compare(), not to rhs.compare). No heapify is run. -/
def ctorCopy (rhs : priority_queue α) (c : α → α → Bool) : priority_queue α :=
  { container := rhs.container, compare := c }

/-- Move constructor priority_queue(priority_queue&&, const Compare& c):
takes rhs.container (a transfer in C++) and initialises the comparator with
c. No heapify is run. -/
def ctorMove (rhs : priority_queue α) (c : α → α → Bool) : priority_queue α :=
  { container := rhs.container, compare := c }

/-- Iterator-range constructor: pushes each element in order through the
standard push path. -/
def ctorRange (c : α → α → Bool) (l : List α) : priority_queue α :=
  l.foldl push (ctorDefault c)

/-- Bulk constructor priority_queue(const Compare&, Container&&): takes the
container as-is and runs heapify() on it. -/
def ctorBulkMove (c : α → α → Bool) (l : List α) : priority_queue α :=
  { container := heapify c l, compare := c }

/-- Constructor priority_queue(const Compare&, Container&): stores the
container without re-heapifying. -/
def ctorContainerRef (c : α → α → Bool) (l : List α) : priority_queue α :=
  { container := l, compare := c }

/-- priority_queue::size. -/
def size (q : priority_queue α) : Nat := q.container.length

/-- priority_queue::empty. -/
def emptyQ (q : priority_queue α) : Bool := q.container.isEmpty

/-- The free function custom::swap: exchanges the container fields and the
compare fields of the two queues; returns the new (lhs, rhs) states. -/
def swap (lhs rhs : priority_queue α) : priority_queue α × priority_queue α :=
  ({ container := rhs.container, compare := rhs.compare },
   { container := lhs.container, compare := lhs.compare })

/-- Repeatedly read top() and pop() until the queue is empty, collecting the
tops in order (fuelled; the container length is sufficient fuel since each
pop shrinks it by one). -/
def popAllF : Nat → priority_queue α → List α
  | 0, _ => []
  | fuel+1, q =>
    match q.container with
    | [] => []
    | x :: _ => x :: popAllF fuel (pop q)

/-- Drain the queue by repeated top/pop. -/
def popAll (q : priority_queue α) : List α := popAllF q.container.length q

/-- A public mutating call on the queue: push with an argument, or pop. -/
inductive Op (α : Type) where
  | push : α → Op α
  | pop : Op α

/-- Apply one public call. -/
def applyOp (q : priority_queue α) : Op α → priority_queue α
  | .push a => push q a
  | .pop => pop q

/-- Run a sequence of push/pop calls starting from the empty queue with the
given comparator. -/
def runOps (c : α → α → Bool) (ops : List (Op α)) : priority_queue α :=
  ops.foldl applyOp (ctorDefault c)

/-- The heap property at 1-based parent index j: for each existing child
index c (c = 2j or 2j+1, c <= size), the parent does not compare below the
child. -/
def heapAt (cmp : α → α → Bool) (l : List α) (j : Nat) : Prop :=
  ∀ c, (c = j * 2 ∨ c = j * 2 + 1) → c ≤ l.length →
    cmp (l.getD (j - 1) default) (l.getD (c - 1) default) = false

/-- The heap invariant: the heap property at every 1-based parent index. -/
def isHeap (cmp : α → α → Bool) (l : List α) : Prop :=
  ∀ j, 1 ≤ j → heapAt cmp l j

/-- The heap property everywhere except possibly at parent index i. -/
def almostHeap (cmp : α → α → Bool) (l : List α) (i : Nat) : Prop :=
  ∀ j, 1 ≤ j → j ≠ i → heapAt cmp l j

/-- cmp is a strict weak ordering: irreflexive, transitive, and with
transitive complement (negative transitivity). -/
def IsSWO (cmp : α → α → Bool) : Prop :=
  (∀ a, cmp a a = false) ∧
  (∀ a b c, cmp a b = true → cmp b c = true → cmp a c = true) ∧
  (∀ a b c, cmp a b = false → cmp b c = false → cmp a c = false)

/-- k lies in the subtree rooted at 1-based heap index i (repeated halving
of k reaches i). -/
def isDesc (i k : Nat) : Prop := ∃ t, k / 2 ^ t = i

/-- The 0-based storage indices that percolateDown reads or writes, in order,
mirroring the source's short-circuit evaluation: container[indexLeft-1] and
container[indexRight-1] are read only when indexRight <= size(); then
container[indexHeap-1] and container[indexBigger-1] are read only when
indexBigger <= size(); the swap touches the same two indices, and the
recursive call contributes its own accesses. -/
def pdAccF (cmp : α → α → Bool) : Nat → List α → Nat → List Nat
  | 0, _, _ => []
  | fuel+1, l, indexHeap =>
    let indexLeft := indexHeap * 2
    let indexRight := indexLeft + 1
    let acc1 : List Nat :=
      if indexRight ≤ l.length then [indexLeft - 1, indexRight - 1] else []
    let indexBigger := biggerChild cmp l indexHeap
    if indexBigger ≤ l.length &&
        cmp (l.getD (indexHeap - 1) default) (l.getD (indexBigger - 1) default)
    then acc1 ++ [indexHeap - 1, indexBigger - 1] ++
        pdAccF cmp fuel (swapIdx l (indexHeap - 1) (indexBigger - 1)) indexBigger
    else if indexBigger ≤ l.length then acc1 ++ [indexHeap - 1, indexBigger - 1]
    else acc1

/-- The default less-than ordering on Nat (std::less). -/
def natLt : Nat → Nat → Bool := fun a b => decide (a < b)

/-- A greater-than ordering on Nat (std::greater), inverting the heap. -/
def natGt : Nat → Nat → Bool := fun a b => decide (b < a)

/-- A keys-only ordering on pairs: compares first components and ignores the
second. A genuine strict weak ordering (irreflexive, transitive, negatively
transitive) that is not antisymmetric: distinct pairs with equal keys are
equivalent but unequal. -/
def pairLt : Nat × Nat → Nat × Nat → Bool := fun a b => decide (a.1 < b.1)

/-! ### Basic list-access helper lemmas -/

theorem getD_set_ne (l : List α) (i k : Nat) (a : α) (h : i ≠ k) :
    (l.set i a).getD k default = l.getD k default := by
  rw [List.getD_eq_getElem?_getD, List.getD_eq_getElem?_getD, List.getElem?_set_ne h]

theorem getD_set_self (l : List α) (i : Nat) (a : α) (h : i < l.length) :
    (l.set i a).getD i default = a := by
  rw [List.getD_eq_getElem?_getD, List.getElem?_set_self h]
  rfl

theorem getD_append_lt (l : List α) (t : α) (k : Nat) (h : k < l.length) :
    (l ++ [t]).getD k default = l.getD k default := by
  rw [List.getD_eq_getElem?_getD, List.getD_eq_getElem?_getD, List.getElem?_append_left h]

theorem getD_dropLast (l : List α) (k : Nat) (h : k < l.length - 1) :
    l.dropLast.getD k default = l.getD k default := by
  rw [List.getD_eq_getElem?_getD, List.getD_eq_getElem?_getD, List.getElem?_dropLast,
    if_pos h]

theorem set_getD_self (l : List α) (i : Nat) (h : i < l.length) :
    l.set i (l.getD i default) = l := by
  apply List.ext_getElem?
  intro n
  rw [List.getElem?_set]
  by_cases hin : i = n
  · subst hin
    simp [h, List.getD_eq_getElem l default h, List.getElem?_eq_getElem h]
  · simp [hin]

/-! ### swapIdx lemmas -/

theorem length_swapIdx (l : List α) (i j : Nat) :
    (swapIdx l i j).length = l.length := by
  simp [swapIdx]

theorem swapIdx_nil (i j : Nat) : swapIdx ([] : List α) i j = [] := by
  simp [swapIdx]

theorem getD_swapIdx_fst (l : List α) (i j : Nat) (hi : i < l.length)
    (hj : j < l.length) :
    (swapIdx l i j).getD i default = l.getD j default := by
  unfold swapIdx
  by_cases hij : j = i
  · subst hij
    rw [getD_set_self _ _ _ (by simpa using hj)]
  · rw [getD_set_ne _ _ _ _ hij, getD_set_self _ _ _ hi]

theorem getD_swapIdx_snd (l : List α) (i j : Nat) (hj : j < l.length) :
    (swapIdx l i j).getD j default = l.getD i default := by
  unfold swapIdx
  rw [getD_set_self _ _ _ (by simpa using hj)]

theorem getD_swapIdx_ne (l : List α) (i j k : Nat) (hki : k ≠ i) (hkj : k ≠ j) :
    (swapIdx l i j).getD k default = l.getD k default := by
  unfold swapIdx
  rw [getD_set_ne _ _ _ _ (fun h => hkj h.symm), getD_set_ne _ _ _ _ (fun h => hki h.symm)]

theorem count_set_add [DecidableEq α] (x a : α) :
    ∀ (l : List α) (i : Nat), i < l.length →
      (l.set i a).count x + (if l.getD i default = x then 1 else 0) =
        l.count x + (if a = x then 1 else 0)
  | [], i, h => by simp at h
  | y :: t, 0, _ => by
    simp only [List.set_cons_zero, List.getD_cons_zero, List.count_cons, beq_iff_eq]
    omega
  | y :: t, i+1, h => by
    have ih := count_set_add x a t i (by simpa using Nat.lt_of_succ_lt_succ h)
    simp only [List.set_cons_succ, List.getD_cons_succ, List.count_cons, beq_iff_eq]
    omega

theorem swapIdx_perm (l : List α) (i j : Nat) (hi : i < l.length)
    (hj : j < l.length) : List.Perm (swapIdx l i j) l := by
  classical
  rw [List.perm_iff_count]
  intro x
  by_cases hij : i = j
  · subst hij
    unfold swapIdx
    rw [List.set_set, set_getD_self l i hi]
  · have h1 := count_set_add x (l.getD i default)
      (l.set i (l.getD j default)) j (by simpa using hj)
    have h2 := count_set_add x (l.getD j default) l i hi
    rw [getD_set_ne _ _ _ _ hij] at h1
    unfold swapIdx
    set P : Nat := if l.getD i default = x then 1 else 0 with hP
    set Q : Nat := if l.getD j default = x then 1 else 0 with hQ
    omega

/-! ### percolateDown basics: unfolding, length, fuel independence, perm -/

theorem pdF_succ_eq (cmp : α → α → Bool) (fuel : Nat) (l : List α) (i : Nat) :
    percolateDownF cmp (fuel+1) l i =
      if biggerChild cmp l i ≤ l.length &&
          cmp (l.getD (i - 1) default) (l.getD (biggerChild cmp l i - 1) default)
      then ((percolateDownF cmp fuel
              (swapIdx l (i - 1) (biggerChild cmp l i - 1)) (biggerChild cmp l i)).1,
            true)
      else (l, false) := rfl

theorem biggerChild_eq (cmp : α → α → Bool) (l : List α) (i : Nat) :
    biggerChild cmp l i =
      if i * 2 + 1 ≤ l.length &&
          cmp (l.getD (i * 2 - 1) default) (l.getD (i * 2 + 1 - 1) default)
      then i * 2 + 1 else i * 2 := rfl

theorem biggerChild_cases (cmp : α → α → Bool) (l : List α) (i : Nat) :
    biggerChild cmp l i = i * 2 ∨ biggerChild cmp l i = i * 2 + 1 := by
  rw [biggerChild_eq]
  split
  · exact Or.inr rfl
  · exact Or.inl rfl

theorem biggerChild_right (cmp : α → α → Bool) (l : List α) (i : Nat)
    (h : biggerChild cmp l i = i * 2 + 1) :
    i * 2 + 1 ≤ l.length ∧
      cmp (l.getD (i * 2 - 1) default) (l.getD (i * 2) default) = true := by
  rw [biggerChild_eq] at h
  split at h
  · rename_i hc
    rw [Bool.and_eq_true, decide_eq_true_eq] at hc
    simpa using hc
  · omega

theorem biggerChild_left (cmp : α → α → Bool) (l : List α) (i : Nat)
    (h : biggerChild cmp l i = i * 2) (hi : 1 ≤ i) :
    ¬(i * 2 + 1 ≤ l.length ∧
        cmp (l.getD (i * 2 - 1) default) (l.getD (i * 2) default) = true) := by
  rw [biggerChild_eq] at h
  split at h
  · omega
  · rename_i hc
    rw [Bool.and_eq_true, decide_eq_true_eq] at hc
    simpa using hc

theorem pdF_length (cmp : α → α → Bool) :
    ∀ (fuel : Nat) (l : List α) (i : Nat),
      (percolateDownF cmp fuel l i).1.length = l.length
  | 0, _, _ => rfl
  | fuel+1, l, i => by
    rw [pdF_succ_eq]
    split
    · have := pdF_length cmp fuel (swapIdx l (i - 1) (biggerChild cmp l i - 1))
        (biggerChild cmp l i)
      simpa [length_swapIdx] using this
    · rfl

theorem pdF_add_fuel (cmp : α → α → Bool) :
    ∀ (fuel k : Nat) (l : List α) (i : Nat), 1 ≤ i → 1 ≤ fuel →
      l.length + 1 ≤ fuel + i →
      percolateDownF cmp (fuel + k) l i = percolateDownF cmp fuel l i
  | 0, _, _, _, _, hf, _ => by omega
  | fuel+1, k, l, i, hi, _, hlen => by
    rw [show fuel + 1 + k = (fuel + k) + 1 by omega, pdF_succ_eq, pdF_succ_eq]
    split
    · rename_i hc
      rw [Bool.and_eq_true, decide_eq_true_eq] at hc
      have hb := biggerChild_cases cmp l i
      have h1b : 1 ≤ biggerChild cmp l i := by omega
      have hlt : i < biggerChild cmp l i := by omega
      have hrec := pdF_add_fuel cmp fuel k
        (swapIdx l (i - 1) (biggerChild cmp l i - 1)) (biggerChild cmp l i)
        h1b (by omega) (by rw [length_swapIdx]; omega)
      rw [hrec]
    · rfl

theorem pdF_fuel_indep (cmp : α → α → Bool) (fuel₁ fuel₂ : Nat) (l : List α)
    (i : Nat) (hi : 1 ≤ i) (h₁ : 1 ≤ fuel₁) (hl₁ : l.length + 1 ≤ fuel₁ + i)
    (h₂ : 1 ≤ fuel₂) (hl₂ : l.length + 1 ≤ fuel₂ + i) :
    percolateDownF cmp fuel₁ l i = percolateDownF cmp fuel₂ l i := by
  rcases Nat.le_total fuel₁ fuel₂ with h | h
  · rw [show fuel₂ = fuel₁ + (fuel₂ - fuel₁) by omega,
      pdF_add_fuel cmp fuel₁ (fuel₂ - fuel₁) l i hi h₁ hl₁]
  · rw [show fuel₁ = fuel₂ + (fuel₁ - fuel₂) by omega,
      pdF_add_fuel cmp fuel₂ (fuel₁ - fuel₂) l i hi h₂ hl₂]

theorem pdF_perm (cmp : α → α → Bool) :
    ∀ (fuel : Nat) (l : List α) (i : Nat),
      List.Perm (percolateDownF cmp fuel l i).1 l
  | 0, _, _ => List.Perm.refl _
  | fuel+1, l, i => by
    rw [pdF_succ_eq]
    split
    · rename_i hc
      rw [Bool.and_eq_true, decide_eq_true_eq] at hc
      have hb := biggerChild_cases cmp l i
      rcases Nat.eq_zero_or_pos l.length with hn | hn
      · have hnil : l = [] := List.length_eq_zero.mp hn
        subst hnil
        have hsw : swapIdx ([] : List α) (i - 1) (biggerChild cmp [] i - 1) = [] :=
          swapIdx_nil _ _
        rw [hsw]
        exact pdF_perm cmp fuel [] (biggerChild cmp [] i)
      · have hperm := pdF_perm cmp fuel
          (swapIdx l (i - 1) (biggerChild cmp l i - 1)) (biggerChild cmp l i)
        exact hperm.trans (swapIdx_perm l _ _ (by omega) (by omega))
    · exact List.Perm.refl _

/-! ### Subtree (descendant) index lemmas -/

theorem isDesc_self (i : Nat) : isDesc i i := ⟨0, by simp⟩

theorem not_isDesc_of_lt (b k : Nat) (h : k < b) : ¬ isDesc b k := by
  rintro ⟨t, ht⟩
  have := Nat.div_le_self k (2 ^ t)
  omega

theorem not_isDesc_between (b c : Nat) (h1 : c ≠ b) (h2 : c / 2 < b) :
    ¬ isDesc b c := by
  rintro ⟨t, ht⟩
  cases t with
  | zero =>
    simp at ht
    exact h1 ht
  | succ t =>
    have e : c / 2 ^ (t + 1) = c / 2 / 2 ^ t := by
      rw [pow_succ, Nat.mul_comm, ← Nat.div_div_eq_div_mul]
    have := Nat.div_le_self (c / 2) (2 ^ t)
    omega

theorem isDesc_child (i b k : Nat) (hb : b = i * 2 ∨ b = i * 2 + 1)
    (h : isDesc b k) : isDesc i k := by
  obtain ⟨t, ht⟩ := h
  refine ⟨t + 1, ?_⟩
  have e : k / 2 ^ (t + 1) = k / 2 ^ t / 2 := by
    rw [pow_succ, ← Nat.div_div_eq_div_mul]
  rw [e, ht]
  rcases hb with hb | hb <;> omega

theorem isDesc_child_self (i b : Nat) (hb : b = i * 2 ∨ b = i * 2 + 1) :
    isDesc i b :=
  isDesc_child i b b hb (isDesc_self b)

/-! ### Strict-weak-order helper -/

theorem asymm_of (cmp : α → α → Bool) (hirr : ∀ a, cmp a a = false)
    (htr : ∀ a b c, cmp a b = true → cmp b c = true → cmp a c = true)
    (a b : α) (h : cmp a b = true) : cmp b a = false := by
  cases hba : cmp b a
  · rfl
  · have hcontra := htr a b a h hba
    rw [hirr] at hcontra
    simp at hcontra

/-- If percolateDown takes its no-swap branch at index i, the heap property
already holds at i (for both children, using transitivity for the one that
was not selected as the stronger child). -/
theorem heapAt_noswap (cmp : α → α → Bool) (hirr : ∀ a, cmp a a = false)
    (htr : ∀ a b c, cmp a b = true → cmp b c = true → cmp a c = true)
    (hneg : ∀ a b c, cmp a b = false → cmp b c = false → cmp a c = false)
    (l : List α) (i : Nat) (hi : 1 ≤ i)
    (hsw : ¬(biggerChild cmp l i ≤ l.length ∧
        cmp (l.getD (i - 1) default)
          (l.getD (biggerChild cmp l i - 1) default) = true)) :
    heapAt cmp l i := by
  intro c hc hcle
  rcases biggerChild_cases cmp l i with hb | hb
  · -- the left child was selected
    have hL := biggerChild_left cmp l i hb hi
    rw [hb] at hsw
    have hlen : i * 2 ≤ l.length := by rcases hc with hc | hc <;> omega
    have h1 : cmp (l.getD (i - 1) default) (l.getD (i * 2 - 1) default) = false := by
      cases hx : cmp (l.getD (i - 1) default) (l.getD (i * 2 - 1) default)
      · rfl
      · exact absurd ⟨hlen, hx⟩ hsw
    rcases hc with hc | hc
    · rw [hc]
      exact h1
    · have h2 : cmp (l.getD (i * 2 - 1) default) (l.getD (i * 2) default) = false := by
        cases hx : cmp (l.getD (i * 2 - 1) default) (l.getD (i * 2) default)
        · rfl
        · exact absurd ⟨by omega, hx⟩ hL
      rw [hc, Nat.add_sub_cancel]
      exact hneg _ _ _ h1 h2
  · -- the right child was selected
    obtain ⟨hrle, hLR⟩ := biggerChild_right cmp l i hb
    rw [hb] at hsw
    have h1 : cmp (l.getD (i - 1) default) (l.getD (i * 2) default) = false := by
      cases hx : cmp (l.getD (i - 1) default) (l.getD (i * 2 + 1 - 1) default)
      · rw [Nat.add_sub_cancel] at hx
        exact hx
      · exact absurd ⟨hrle, hx⟩ hsw
    rcases hc with hc | hc
    · cases hx : cmp (l.getD (i - 1) default) (l.getD (i * 2 - 1) default)
      · rw [hc]
        exact hx
      · have hcontra := htr _ _ _ hx hLR
        rw [hcontra] at h1
        cases h1
    · rw [hc, Nat.add_sub_cancel]
      exact h1

/-- Main percolateDown specification. If the heap property holds at every
parent index strictly below the subtree root i (in heap order, i.e. at every
j greater than i), then after percolateDown at i with sufficient fuel:
positions outside the subtree of i are unchanged; the heap property holds at
every index greater than or equal to i; and the value now at i is either the
old value at i or the old value of one of its children. -/
theorem pd_spec (cmp : α → α → Bool) (hirr : ∀ a, cmp a a = false)
    (htr : ∀ a b c, cmp a b = true → cmp b c = true → cmp a c = true)
    (hneg : ∀ a b c, cmp a b = false → cmp b c = false → cmp a c = false) :
    ∀ (fuel : Nat) (l : List α) (i : Nat), 1 ≤ i → 1 ≤ fuel →
      l.length + 1 ≤ fuel + i → (∀ j, i < j → heapAt cmp l j) →
      (∀ k, 1 ≤ k → ¬ isDesc i k →
          (percolateDownF cmp fuel l i).1.getD (k - 1) default =
            l.getD (k - 1) default) ∧
      (∀ j, i ≤ j → heapAt cmp (percolateDownF cmp fuel l i).1 j) ∧
      ((percolateDownF cmp fuel l i).1.getD (i - 1) default =
          l.getD (i - 1) default ∨
        ∃ c, (c = i * 2 ∨ c = i * 2 + 1) ∧ c ≤ l.length ∧
          (percolateDownF cmp fuel l i).1.getD (i - 1) default =
            l.getD (c - 1) default)
  | 0, l, i => fun _ hf _ _ => absurd hf (by omega)
  | fuel+1, l, i => by
    intro hi _ hlen hyp
    rw [pdF_succ_eq]
    set b := biggerChild cmp l i with hbdef
    have hbcases : b = i * 2 ∨ b = i * 2 + 1 := by
      rw [hbdef]
      exact biggerChild_cases cmp l i
    have hib : i < b := by rcases hbcases with hb | hb <;> omega
    by_cases hsw : (decide (b ≤ l.length) &&
        cmp (l.getD (i - 1) default) (l.getD (b - 1) default)) = true
    · -- swap branch
      rw [if_pos hsw]
      dsimp only
      rw [Bool.and_eq_true, decide_eq_true_eq] at hsw
      obtain ⟨hble, hcmp⟩ := hsw
      have hb1 : 1 ≤ b := by omega
      have hfuel : 1 ≤ fuel := by omega
      set L2 := swapIdx l (i - 1) (b - 1) with hL2
      have hL2len : L2.length = l.length := by
        rw [hL2]
        exact length_swapIdx l _ _
      have hyp2 : ∀ j, b < j → heapAt cmp L2 j := by
        intro j hj c hc hcle
        rw [hL2len] at hcle
        have hcgt : b < c := by rcases hc with h | h <;> omega
        have e1 : L2.getD (j - 1) default = l.getD (j - 1) default := by
          rw [hL2]
          exact getD_swapIdx_ne l (i - 1) (b - 1) (j - 1) (by omega) (by omega)
        have e2 : L2.getD (c - 1) default = l.getD (c - 1) default := by
          rw [hL2]
          exact getD_swapIdx_ne l (i - 1) (b - 1) (c - 1) (by omega) (by omega)
        rw [e1, e2]
        exact hyp j (by omega) c hc hcle
      obtain ⟨IHunch, IHheap, IHval⟩ :=
        pd_spec cmp hirr htr hneg fuel L2 b hb1 hfuel (by rw [hL2len]; omega) hyp2
      have hL3len : (percolateDownF cmp fuel L2 b).1.length = l.length := by
        rw [pdF_length]
        exact hL2len
      have hvi : (percolateDownF cmp fuel L2 b).1.getD (i - 1) default =
          l.getD (b - 1) default := by
        rw [IHunch i hi (not_isDesc_of_lt b i hib), hL2]
        exact getD_swapIdx_fst l (i - 1) (b - 1) (by omega) (by omega)
      refine ⟨?_, ?_, ?_⟩
      · intro k hk hnd
        have hnd2 : ¬ isDesc b k := fun h => hnd (isDesc_child i b k hbcases h)
        have hki : k ≠ i := fun h => hnd (by rw [h]; exact isDesc_self i)
        have hkb : k ≠ b := fun h => hnd (by rw [h]; exact isDesc_child_self i b hbcases)
        rw [IHunch k hk hnd2, hL2]
        exact getD_swapIdx_ne l (i - 1) (b - 1) (k - 1) (by omega) (by omega)
      · intro j hij
        rcases Nat.lt_or_ge j b with hjb | hjb
        · rcases Nat.eq_or_lt_of_le hij with hji | hji
          · -- j = i
            subst hji
            intro c hc hcle
            rw [hL3len] at hcle
            rw [hvi]
            by_cases hcb : c = b
            · subst hcb
              rcases IHval with hv | ⟨cc, hcc, hccle, hv⟩
              · rw [hv, hL2, getD_swapIdx_snd l (i - 1) (b - 1) (by omega)]
                exact asymm_of cmp hirr htr _ _ hcmp
              · rw [hL2len] at hccle
                have hccgt : b < cc := by rcases hcc with h | h <;> omega
                rw [hv, hL2,
                  getD_swapIdx_ne l (i - 1) (b - 1) (cc - 1) (by omega) (by omega)]
                exact hyp b hib cc hcc hccle
            · -- c is the sibling of b
              have hcd : ¬ isDesc b c := by
                apply not_isDesc_between b c hcb
                rcases hc with h | h <;> omega
              rw [IHunch c (by rcases hc with h | h <;> omega) hcd, hL2,
                getD_swapIdx_ne l (i - 1) (b - 1) (c - 1) (by omega) (by omega)]
              rcases hbcases with hb | hb
              · -- left chosen, so c must be the right child, and it exists
                have hcr : c = i * 2 + 1 := by rcases hc with h | h <;> omega
                have hbeq : biggerChild cmp l i = i * 2 := by rw [← hbdef]; exact hb
                have hL := biggerChild_left cmp l i hbeq hi
                have h2 : cmp (l.getD (i * 2 - 1) default)
                    (l.getD (i * 2) default) = false := by
                  cases hx : cmp (l.getD (i * 2 - 1) default) (l.getD (i * 2) default)
                  · rfl
                  · exact absurd ⟨by omega, hx⟩ hL
                rw [hb, hcr, Nat.add_sub_cancel]
                exact h2
              · -- right chosen, so c must be the left child
                have hcr : c = i * 2 := by rcases hc with h | h <;> omega
                have hbeq : biggerChild cmp l i = i * 2 + 1 := by rw [← hbdef]; exact hb
                obtain ⟨_, hLR⟩ := biggerChild_right cmp l i hbeq
                rw [hb, hcr, Nat.add_sub_cancel]
                exact asymm_of cmp hirr htr _ _ hLR
          · -- i < j < b
            intro c hc hcle
            rw [hL3len] at hcle
            have hcgt : b < c := by
              rcases hc with h | h <;> rcases hbcases with h2 | h2 <;> omega
            have hc2 : c / 2 < b := by rcases hc with h | h <;> omega
            have hcd : ¬ isDesc b c := not_isDesc_between b c (by omega) hc2
            have hjd : ¬ isDesc b j := not_isDesc_of_lt b j hjb
            rw [IHunch c (by omega) hcd, IHunch j (by omega) hjd, hL2,
              getD_swapIdx_ne l (i - 1) (b - 1) (c - 1) (by omega) (by omega),
              getD_swapIdx_ne l (i - 1) (b - 1) (j - 1) (by omega) (by omega)]
            exact hyp j hji c hc hcle
        · exact IHheap j hjb
      · right
        exact ⟨b, hbcases, hble, hvi⟩
    · -- no-swap branch
      rw [if_neg hsw]
      dsimp only
      rw [Bool.and_eq_true, decide_eq_true_eq] at hsw
      refine ⟨fun k _ _ => rfl, ?_, Or.inl rfl⟩
      intro j hij
      rcases Nat.eq_or_lt_of_le hij with hji | hji
      · subst hji
        rw [hbdef] at hsw
        exact heapAt_noswap cmp hirr htr hneg l i hi hsw
      · exact hyp j hji

/-- When percolateDown reports no change (with nonzero fuel), the container
is unchanged. -/
theorem pdF_false_eq (cmp : α → α → Bool) (fuel : Nat) (l : List α) (i : Nat)
    (hf : 1 ≤ fuel) (h : (percolateDownF cmp fuel l i).2 = false) :
    (percolateDownF cmp fuel l i).1 = l := by
  cases fuel with
  | zero => omega
  | succ fuel =>
    rw [pdF_succ_eq] at h ⊢
    by_cases hsw : (decide (biggerChild cmp l i ≤ l.length) &&
        cmp (l.getD (i - 1) default) (l.getD (biggerChild cmp l i - 1) default)) = true
    · rw [if_pos hsw] at h
      simp at h
    · rw [if_neg hsw]

/-- percolateDown as used by push: on an input that is a heap everywhere
except possibly at index i, a false return means the whole container already
is a heap (and is untouched), while a true return leaves a container that is
a heap everywhere except possibly at the parent index i / 2. -/
theorem pd_push_spec (cmp : α → α → Bool) (hirr : ∀ a, cmp a a = false)
    (htr : ∀ a b c, cmp a b = true → cmp b c = true → cmp a c = true)
    (hneg : ∀ a b c, cmp a b = false → cmp b c = false → cmp a c = false)
    (fuel : Nat) (l : List α) (i : Nat) (hi : 1 ≤ i) (hf : 1 ≤ fuel)
    (hlen : l.length + 1 ≤ fuel + i) (hah : almostHeap cmp l i) :
    ((percolateDownF cmp fuel l i).2 = false →
        (percolateDownF cmp fuel l i).1 = l ∧ isHeap cmp l) ∧
    ((percolateDownF cmp fuel l i).2 = true →
        almostHeap cmp (percolateDownF cmp fuel l i).1 (i / 2)) := by
  cases fuel with
  | zero => omega
  | succ fuel =>
    constructor
    · intro hfalse
      refine ⟨pdF_false_eq cmp (fuel+1) l i (by omega) hfalse, ?_⟩
      have hsw : ¬((decide (biggerChild cmp l i ≤ l.length) &&
          cmp (l.getD (i - 1) default)
            (l.getD (biggerChild cmp l i - 1) default)) = true) := by
        intro hc
        rw [pdF_succ_eq, if_pos hc] at hfalse
        simp at hfalse
      rw [Bool.and_eq_true, decide_eq_true_eq] at hsw
      intro j hj
      by_cases hji : j = i
      · subst hji
        exact heapAt_noswap cmp hirr htr hneg l j hi hsw
      · exact hah j hj hji
    · intro _
      obtain ⟨unch, heap, _⟩ := pd_spec cmp hirr htr hneg (fuel+1) l i hi (by omega)
        hlen (fun j hj => hah j (by omega) (by omega))
      intro j hj1 hjne
      rcases Nat.lt_or_ge j i with hji | hji
      · intro c hc hcle
        rw [pdF_length] at hcle
        have hci : c ≠ i := by rcases hc with h | h <;> omega
        have hcd : ¬ isDesc i c :=
          not_isDesc_between i c hci (by rcases hc with h | h <;> omega)
        have hjd : ¬ isDesc i j := not_isDesc_of_lt i j hji
        rw [unch c (by rcases hc with h | h <;> omega) hcd, unch j (by omega) hjd]
        exact hah j hj1 (by omega) c hc hcle
      · exact heap j hji

theorem pushLoopF_succ_eq (cmp : α → α → Bool) (fuel : Nat) (l : List α)
    (index : Nat) :
    pushLoopF cmp (fuel+1) l index =
      if index = 0 then l
      else if (percolateDown cmp l index).2
        then pushLoopF cmp fuel (percolateDown cmp l index).1 (index / 2)
        else (percolateDown cmp l index).1 := rfl

/-- The push loop turns a container that is a heap except possibly at the
starting index into a heap. -/
theorem pushLoopF_isHeap (cmp : α → α → Bool) (hirr : ∀ a, cmp a a = false)
    (htr : ∀ a b c, cmp a b = true → cmp b c = true → cmp a c = true)
    (hneg : ∀ a b c, cmp a b = false → cmp b c = false → cmp a c = false) :
    ∀ (fuel : Nat) (l : List α) (index : Nat), index + 1 ≤ fuel →
      almostHeap cmp l index → isHeap cmp (pushLoopF cmp fuel l index)
  | 0, _, _ => fun h _ => absurd h (by omega)
  | fuel+1, l, index => by
    intro hf hah
    rw [pushLoopF_succ_eq]
    by_cases h0 : index = 0
    · rw [if_pos h0]
      intro j hj
      exact hah j hj (by omega)
    · rw [if_neg h0]
      have hspec := pd_push_spec cmp hirr htr hneg (l.length + 1) l index
        (by omega) (by omega) (by omega) hah
      split
      · rename_i hch
        exact pushLoopF_isHeap cmp hirr htr hneg fuel _ _ (by omega) (hspec.2 hch)
      · rename_i hch
        rw [Bool.not_eq_true] at hch
        obtain ⟨hl, hheap⟩ := hspec.1 hch
        show isHeap cmp (percolateDownF cmp (l.length + 1) l index).1
        rw [hl]
        exact hheap

theorem pushLoopF_perm (cmp : α → α → Bool) :
    ∀ (fuel : Nat) (l : List α) (index : Nat),
      List.Perm (pushLoopF cmp fuel l index) l
  | 0, l, _ => List.Perm.refl _
  | fuel+1, l, index => by
    rw [pushLoopF_succ_eq]
    split
    · exact List.Perm.refl _
    · split
      · exact (pushLoopF_perm cmp fuel _ _).trans (pdF_perm cmp _ l index)
      · exact pdF_perm cmp _ l index

theorem pushLoopF_length (cmp : α → α → Bool) (fuel : Nat) (l : List α)
    (index : Nat) : (pushLoopF cmp fuel l index).length = l.length :=
  (pushLoopF_perm cmp fuel l index).length_eq

/-! ### Structure-level operation facts -/

theorem push_container_eq (q : priority_queue α) (t : α) :
    (push q t).container =
      pushLoopF q.compare ((q.container ++ [t]).length / 2 + 1)
        (q.container ++ [t]) ((q.container ++ [t]).length / 2) := rfl

theorem push_compare (q : priority_queue α) (t : α) :
    (push q t).compare = q.compare := rfl

theorem pop_empty (q : priority_queue α) (h : q.container = []) : pop q = q := by
  obtain ⟨c, cm⟩ := q
  simp only at h
  subst h
  rfl

theorem pop_container_eq (q : priority_queue α) (h : q.container ≠ []) :
    (pop q).container =
      (percolateDown q.compare
        ((swapIdx q.container 0 (q.container.length - 1)).dropLast) 1).1 := by
  obtain ⟨c, cm⟩ := q
  match c with
  | [] => exact absurd rfl h
  | x :: xs => rfl

theorem pop_compare (q : priority_queue α) : (pop q).compare = q.compare := by
  obtain ⟨c, cm⟩ := q
  match c with
  | [] => rfl
  | x :: xs => rfl

theorem pop_length (q : priority_queue α) (h : q.container ≠ []) :
    (pop q).container.length = q.container.length - 1 := by
  rw [pop_container_eq q h]
  unfold percolateDown
  rw [pdF_length, List.length_dropLast, length_swapIdx]

/-- push preserves the heap invariant. -/
theorem push_isHeap (q : priority_queue α) (t : α)
    (hirr : ∀ a, q.compare a a = false)
    (htr : ∀ a b c, q.compare a b = true → q.compare b c = true →
      q.compare a c = true)
    (hneg : ∀ a b c, q.compare a b = false → q.compare b c = false →
      q.compare a c = false)
    (hq : isHeap q.compare q.container) :
    isHeap q.compare (push q t).container := by
  rw [push_container_eq]
  apply pushLoopF_isHeap q.compare hirr htr hneg _ _ _ (by omega)
  intro j hj1 hjne c hc hcle
  simp only [List.length_append, List.length_cons, List.length_nil] at hjne hcle
  have hc2 : j * 2 ≤ c := by rcases hc with h | h <;> omega
  have hclt : c ≤ q.container.length := by rcases hc with h | h <;> omega
  have hjlt : j - 1 < q.container.length := by omega
  have hcl2 : c - 1 < q.container.length := by omega
  rw [getD_append_lt _ t _ hjlt, getD_append_lt _ t _ hcl2]
  exact hq j hj1 c hc hclt

/-- pop preserves the heap invariant. -/
theorem pop_isHeap (q : priority_queue α)
    (hirr : ∀ a, q.compare a a = false)
    (htr : ∀ a b c, q.compare a b = true → q.compare b c = true →
      q.compare a c = true)
    (hneg : ∀ a b c, q.compare a b = false → q.compare b c = false →
      q.compare a c = false)
    (hq : isHeap q.compare q.container) :
    isHeap q.compare (pop q).container := by
  by_cases h : q.container = []
  · rw [pop_empty q h]
    exact hq
  · rw [pop_container_eq q h]
    have hn : 0 < q.container.length := List.length_pos.mpr h
    have hmlen : ((swapIdx q.container 0 (q.container.length - 1)).dropLast).length =
        q.container.length - 1 := by
      rw [List.length_dropLast, length_swapIdx]
    have hyp2 : ∀ j, 1 < j →
        heapAt q.compare ((swapIdx q.container 0 (q.container.length - 1)).dropLast) j := by
      intro j hj c hc hcle
      rw [hmlen] at hcle
      have hc2 : j * 2 ≤ c := by rcases hc with h2 | h2 <;> omega
      have e1 : ((swapIdx q.container 0 (q.container.length - 1)).dropLast).getD
          (j - 1) default = q.container.getD (j - 1) default := by
        rw [getD_dropLast _ _ (by rw [length_swapIdx]; omega),
          getD_swapIdx_ne q.container 0 (q.container.length - 1) (j - 1)
            (by omega) (by omega)]
      have e2 : ((swapIdx q.container 0 (q.container.length - 1)).dropLast).getD
          (c - 1) default = q.container.getD (c - 1) default := by
        rw [getD_dropLast _ _ (by rw [length_swapIdx]; omega),
          getD_swapIdx_ne q.container 0 (q.container.length - 1) (c - 1)
            (by omega) (by omega)]
      rw [e1, e2]
      exact hq j (by omega) c hc (by omega)
    obtain ⟨_, heap, _⟩ := pd_spec q.compare hirr htr hneg
      (((swapIdx q.container 0 (q.container.length - 1)).dropLast).length + 1)
      ((swapIdx q.container 0 (q.container.length - 1)).dropLast) 1
      (by omega) (by omega) (by omega) hyp2
    intro j hj
    exact heap j hj

/-- In a heap, the root does not compare below any element. -/
theorem top_max (cmp : α → α → Bool) (hirr : ∀ a, cmp a a = false)
    (hneg : ∀ a b c, cmp a b = false → cmp b c = false → cmp a c = false)
    (l : List α) (hl : isHeap cmp l) :
    ∀ k, 1 ≤ k → k ≤ l.length →
      cmp (l.getD 0 default) (l.getD (k - 1) default) = false := by
  intro k
  induction k using Nat.strong_induction_on with
  | _ k ih =>
    intro hk1 hkle
    rcases Nat.eq_or_lt_of_le hk1 with h1 | h1
    · rw [← h1]
      exact hirr _
    · have hp1 : 1 ≤ k / 2 := by omega
      have hpc : k = (k / 2) * 2 ∨ k = (k / 2) * 2 + 1 := by omega
      have hparent := hl (k / 2) hp1 k hpc hkle
      have htop := ih (k / 2) (by omega) hp1 (by omega)
      exact hneg _ _ _ htop hparent

/-- pop removes exactly the root element: the old root consed onto the new
container is a permutation of the old container. -/
theorem pop_perm (q : priority_queue α) (h : q.container ≠ []) :
    List.Perm (q.container.getD 0 default :: (pop q).container) q.container := by
  classical
  rw [pop_container_eq q h]
  have hn : 0 < q.container.length := List.length_pos.mpr h
  have hm0len : (swapIdx q.container 0 (q.container.length - 1)).length =
      q.container.length := length_swapIdx _ _ _
  have hm0ne : swapIdx q.container 0 (q.container.length - 1) ≠ [] := by
    intro hc
    rw [hc] at hm0len
    simp at hm0len
    omega
  have hlast : (swapIdx q.container 0 (q.container.length - 1)).getLast hm0ne =
      q.container.getD 0 default := by
    rw [List.getLast_eq_getElem,
      ← List.getD_eq_getElem (swapIdx q.container 0 (q.container.length - 1))
        default (by omega), hm0len]
    exact getD_swapIdx_snd q.container 0 (q.container.length - 1) (by omega)
  have hdecomp : (swapIdx q.container 0 (q.container.length - 1)).dropLast ++
      [q.container.getD 0 default] =
      swapIdx q.container 0 (q.container.length - 1) := by
    rw [← hlast]
    exact List.dropLast_append_getLast hm0ne
  have hp1 : List.Perm (swapIdx q.container 0 (q.container.length - 1))
      q.container := swapIdx_perm _ _ _ (by omega) (by omega)
  have hp2 : List.Perm (percolateDown q.compare
      ((swapIdx q.container 0 (q.container.length - 1)).dropLast) 1).1
      ((swapIdx q.container 0 (q.container.length - 1)).dropLast) :=
    pdF_perm _ _ _ _
  have hp4 : List.Perm
      ((swapIdx q.container 0 (q.container.length - 1)).dropLast ++
        [q.container.getD 0 default]) q.container := by
    rw [hdecomp]
    exact hp1
  exact (hp2.cons _).trans
    ((List.perm_append_singleton _ _).symm.trans hp4)

/-- push appends exactly the new element, up to permutation. -/
theorem push_perm (q : priority_queue α) (t : α) :
    List.Perm (push q t).container (t :: q.container) := by
  rw [push_container_eq]
  exact (pushLoopF_perm _ _ _ _).trans (List.perm_append_singleton t q.container)

theorem popAllF_nil (fuel : Nat) (q : priority_queue α) (h : q.container = []) :
    popAllF fuel q = [] := by
  obtain ⟨c, cm⟩ := q
  simp only at h
  subst h
  cases fuel <;> rfl

theorem popAllF_cons (fuel : Nat) (q : priority_queue α) (x : α) (xs : List α)
    (h : q.container = x :: xs) :
    popAllF (fuel+1) q = x :: popAllF fuel (pop q) := by
  obtain ⟨c, cm⟩ := q
  simp only at h
  subst h
  rfl

/-- Draining a heap yields a permutation of its container, sorted so that no
element compares below a later element. -/
theorem popAll_spec (cmp : α → α → Bool) (hirr : ∀ a, cmp a a = false)
    (htr : ∀ a b c, cmp a b = true → cmp b c = true → cmp a c = true)
    (hneg : ∀ a b c, cmp a b = false → cmp b c = false → cmp a c = false) :
    ∀ (n : Nat) (q : priority_queue α), q.container.length = n →
      q.compare = cmp → isHeap cmp q.container →
      List.Perm (popAllF n q) q.container ∧
      List.Pairwise (fun a b => cmp a b = false) (popAllF n q)
  | 0, q, hlen, _, _ => by
    rw [popAllF_nil 0 q (List.length_eq_zero.mp hlen),
      List.length_eq_zero.mp hlen]
    exact ⟨List.Perm.refl _, List.Pairwise.nil⟩
  | n+1, q, hlen, hcm, hq => by
    obtain ⟨x, xs, hx⟩ : ∃ x xs, q.container = x :: xs := by
      cases hc : q.container with
      | nil => rw [hc] at hlen; simp at hlen
      | cons y ys => exact ⟨y, ys, rfl⟩
    rw [popAllF_cons n q x xs hx]
    have hne : q.container ≠ [] := by rw [hx]; simp
    have hplen : (pop q).container.length = n := by
      rw [pop_length q hne, hlen]
      omega
    have hpcm : (pop q).compare = cmp := by rw [pop_compare]; exact hcm
    have hih : isHeap cmp (pop q).container := by
      have hh := pop_isHeap q (by rw [hcm]; exact hirr) (by rw [hcm]; exact htr)
        (by rw [hcm]; exact hneg) (by rw [hcm]; exact hq)
      rw [hcm] at hh
      exact hh
    obtain ⟨ihperm, ihpair⟩ :=
      popAll_spec cmp hirr htr hneg n (pop q) hplen hpcm hih
    have hx0 : q.container.getD 0 default = x := by rw [hx]; rfl
    have hpp : List.Perm (x :: (pop q).container) q.container := by
      rw [← hx0]
      exact pop_perm q hne
    refine ⟨(ihperm.cons x).trans hpp, List.Pairwise.cons ?_ ihpair⟩
    intro y hy
    have hy2 : y ∈ (pop q).container := ihperm.mem_iff.mp hy
    have hy3 : y ∈ q.container := hpp.mem_iff.mp (List.mem_cons_of_mem x hy2)
    obtain ⟨idx, hidx, hyv⟩ := List.mem_iff_getElem.mp hy3
    have e : q.container.getD ((idx + 1) - 1) default = y := by
      rw [Nat.add_sub_cancel, List.getD_eq_getElem _ _ hidx]
      exact hyv
    rw [← hx0, ← e]
    exact top_max cmp hirr hneg q.container hq (idx + 1) (by omega) (by omega)

/-- Bottom-up heapify loop: once all parents above the loop index are fixed,
finishing the loop yields a heap, and the container is only permuted. -/
theorem heapifyDown_spec (cmp : α → α → Bool) (hirr : ∀ a, cmp a a = false)
    (htr : ∀ a b c, cmp a b = true → cmp b c = true → cmp a c = true)
    (hneg : ∀ a b c, cmp a b = false → cmp b c = false → cmp a c = false) :
    ∀ (i : Nat) (l : List α), (∀ j, i < j → heapAt cmp l j) →
      isHeap cmp (heapifyDown cmp l i) ∧ List.Perm (heapifyDown cmp l i) l
  | 0, l, hyp => ⟨fun j hj => hyp j (by omega), List.Perm.refl _⟩
  | i+1, l, hyp => by
    obtain ⟨unch, heap, _⟩ := pd_spec cmp hirr htr hneg (l.length + 1) l (i+1)
      (by omega) (by omega) (by omega) hyp
    obtain ⟨ih1, ih2⟩ := heapifyDown_spec cmp hirr htr hneg i
      (percolateDown cmp l (i+1)).1 (fun j hj => heap j (by omega))
    exact ⟨ih1, ih2.trans (pdF_perm cmp _ l (i+1))⟩

theorem heapify_spec (cmp : α → α → Bool) (hirr : ∀ a, cmp a a = false)
    (htr : ∀ a b c, cmp a b = true → cmp b c = true → cmp a c = true)
    (hneg : ∀ a b c, cmp a b = false → cmp b c = false → cmp a c = false)
    (l : List α) :
    isHeap cmp (heapify cmp l) ∧ List.Perm (heapify cmp l) l := by
  apply heapifyDown_spec cmp hirr htr hneg (l.length / 2) l
  intro j hj c hc hcle
  exact absurd hcle (by rcases hc with h | h <;> omega)

/-- Any sequence of push/pop calls starting from a queue with a heap
container keeps the container a heap and the comparator fixed. -/
theorem foldl_applyOp_spec (cmp : α → α → Bool) (hirr : ∀ a, cmp a a = false)
    (htr : ∀ a b c, cmp a b = true → cmp b c = true → cmp a c = true)
    (hneg : ∀ a b c, cmp a b = false → cmp b c = false → cmp a c = false) :
    ∀ (ops : List (Op α)) (q : priority_queue α), q.compare = cmp →
      isHeap cmp q.container →
      (ops.foldl applyOp q).compare = cmp ∧
        isHeap cmp (ops.foldl applyOp q).container
  | [], _, hcm, hq => ⟨hcm, hq⟩
  | op :: rest, q, hcm, hq => by
    rw [List.foldl_cons]
    apply foldl_applyOp_spec cmp hirr htr hneg rest
    · cases op with
      | push a =>
        show (push q a).compare = cmp
        rw [push_compare]
        exact hcm
      | pop =>
        show (pop q).compare = cmp
        rw [pop_compare]
        exact hcm
    · cases op with
      | push a =>
        show isHeap cmp (push q a).container
        have hh := push_isHeap q a (by rw [hcm]; exact hirr)
          (by rw [hcm]; exact htr) (by rw [hcm]; exact hneg)
          (by rw [hcm]; exact hq)
        rw [hcm] at hh
        exact hh
      | pop =>
        show isHeap cmp (pop q).container
        have hh := pop_isHeap q (by rw [hcm]; exact hirr)
          (by rw [hcm]; exact htr) (by rw [hcm]; exact hneg)
          (by rw [hcm]; exact hq)
        rw [hcm] at hh
        exact hh

theorem isHeap_nil (cmp : α → α → Bool) : isHeap cmp ([] : List α) := by
  intro j hj c hc hcle
  rw [List.length_nil] at hcle
  exact absurd hcle (by rcases hc with h | h <;> omega)

/-! ### Build-by-push correctness, fuel independence, and small helpers -/

theorem foldl_push_spec (cmp : α → α → Bool) (hirr : ∀ a, cmp a a = false)
    (htr : ∀ a b c, cmp a b = true → cmp b c = true → cmp a c = true)
    (hneg : ∀ a b c, cmp a b = false → cmp b c = false → cmp a c = false) :
    ∀ (l : List α) (q : priority_queue α), q.compare = cmp →
      isHeap cmp q.container →
      (l.foldl push q).compare = cmp ∧ isHeap cmp (l.foldl push q).container ∧
      List.Perm (l.foldl push q).container (q.container ++ l)
  | [], q, hcm, hq => ⟨hcm, hq, by simp⟩
  | t :: rest, q, hcm, hq => by
    rw [List.foldl_cons]
    have hpc : (push q t).compare = cmp := by rw [push_compare]; exact hcm
    have hph : isHeap cmp (push q t).container := by
      have hh := push_isHeap q t (by rw [hcm]; exact hirr) (by rw [hcm]; exact htr)
        (by rw [hcm]; exact hneg) (by rw [hcm]; exact hq)
      rw [hcm] at hh
      exact hh
    obtain ⟨c1, c2, c3⟩ := foldl_push_spec cmp hirr htr hneg rest (push q t) hpc hph
    refine ⟨c1, c2, c3.trans ?_⟩
    have hp := (push_perm q t).append_right rest
    exact hp.trans (List.perm_middle.symm.trans (List.Perm.refl _))

theorem ctorRange_spec (cmp : α → α → Bool) (hirr : ∀ a, cmp a a = false)
    (htr : ∀ a b c, cmp a b = true → cmp b c = true → cmp a c = true)
    (hneg : ∀ a b c, cmp a b = false → cmp b c = false → cmp a c = false)
    (l : List α) :
    (ctorRange cmp l).compare = cmp ∧ isHeap cmp (ctorRange cmp l).container ∧
      List.Perm (ctorRange cmp l).container l := by
  obtain ⟨c1, c2, c3⟩ :=
    foldl_push_spec cmp hirr htr hneg l (ctorDefault cmp) rfl (isHeap_nil cmp)
  exact ⟨c1, c2, by simpa using c3⟩

theorem pushLoopF_add_fuel (cmp : α → α → Bool) :
    ∀ (fuel k : Nat) (l : List α) (index : Nat), index + 1 ≤ fuel →
      pushLoopF cmp (fuel + k) l index = pushLoopF cmp fuel l index
  | 0, _, _, _ => fun h => absurd h (by omega)
  | fuel+1, k, l, index => by
    intro hf
    rw [show fuel + 1 + k = (fuel + k) + 1 by omega, pushLoopF_succ_eq,
      pushLoopF_succ_eq]
    by_cases h0 : index = 0
    · rw [if_pos h0, if_pos h0]
    · rw [if_neg h0, if_neg h0]
      split
      · exact pushLoopF_add_fuel cmp fuel k _ (index / 2) (by omega)
      · rfl

theorem pushLoopF_fuel_indep (cmp : α → α → Bool) (fuel₁ fuel₂ : Nat)
    (l : List α) (index : Nat) (h₁ : index + 1 ≤ fuel₁) (h₂ : index + 1 ≤ fuel₂) :
    pushLoopF cmp fuel₁ l index = pushLoopF cmp fuel₂ l index := by
  rcases Nat.le_total fuel₁ fuel₂ with h | h
  · rw [show fuel₂ = fuel₁ + (fuel₂ - fuel₁) by omega,
      pushLoopF_add_fuel cmp fuel₁ (fuel₂ - fuel₁) l index h₁]
  · rw [show fuel₁ = fuel₂ + (fuel₁ - fuel₂) by omega,
      pushLoopF_add_fuel cmp fuel₂ (fuel₁ - fuel₂) l index h₂]

theorem popAllF_add_fuel :
    ∀ (fuel k : Nat) (q : priority_queue α), q.container.length ≤ fuel →
      popAllF (fuel + k) q = popAllF fuel q
  | 0, k, q => by
    intro h
    have hq : q.container = [] := List.length_eq_zero.mp (by omega)
    rw [popAllF_nil _ q hq, popAllF_nil _ q hq]
  | fuel+1, k, q => by
    intro h
    cases hc : q.container with
    | nil => rw [popAllF_nil _ q hc, popAllF_nil _ q hc]
    | cons x xs =>
      rw [show fuel + 1 + k = (fuel + k) + 1 by omega, popAllF_cons _ q x xs hc,
        popAllF_cons _ q x xs hc]
      have hne : q.container ≠ [] := by rw [hc]; simp
      have hlen : (pop q).container.length ≤ fuel := by
        rw [pop_length q hne, hc]
        rw [hc] at h
        simp only [List.length_cons] at h ⊢
        omega
      rw [popAllF_add_fuel fuel k (pop q) hlen]

theorem popAllF_fuel_indep (fuel₁ fuel₂ : Nat) (q : priority_queue α)
    (h₁ : q.container.length ≤ fuel₁) (h₂ : q.container.length ≤ fuel₂) :
    popAllF fuel₁ q = popAllF fuel₂ q := by
  rcases Nat.le_total fuel₁ fuel₂ with h | h
  · rw [show fuel₂ = fuel₁ + (fuel₂ - fuel₁) by omega,
      popAllF_add_fuel fuel₁ (fuel₂ - fuel₁) q h₁]
  · rw [show fuel₁ = fuel₂ + (fuel₁ - fuel₂) by omega,
      popAllF_add_fuel fuel₂ (fuel₁ - fuel₂) q h₂]

theorem pdAccF_succ_eq (cmp : α → α → Bool) (fuel : Nat) (l : List α) (i : Nat) :
    pdAccF cmp (fuel+1) l i =
      if biggerChild cmp l i ≤ l.length &&
          cmp (l.getD (i - 1) default) (l.getD (biggerChild cmp l i - 1) default)
      then (if i * 2 + 1 ≤ l.length then [i * 2 - 1, i * 2 + 1 - 1] else []) ++
          [i - 1, biggerChild cmp l i - 1] ++
          pdAccF cmp fuel (swapIdx l (i - 1) (biggerChild cmp l i - 1))
            (biggerChild cmp l i)
      else if biggerChild cmp l i ≤ l.length then
        (if i * 2 + 1 ≤ l.length then [i * 2 - 1, i * 2 + 1 - 1] else []) ++
          [i - 1, biggerChild cmp l i - 1]
      else (if i * 2 + 1 ≤ l.length then [i * 2 - 1, i * 2 + 1 - 1] else []) := rfl

theorem pdAccF_bounds (cmp : α → α → Bool) :
    ∀ (fuel : Nat) (l : List α) (i : Nat), 1 ≤ i →
      ∀ k ∈ pdAccF cmp fuel l i, k < l.length
  | 0, _, _ => by
    intro _ k hk
    simp [pdAccF] at hk
  | fuel+1, l, i => by
    intro hi k hk
    rw [pdAccF_succ_eq] at hk
    have hbcases := biggerChild_cases cmp l i
    have hacc1 : ∀ m, i * 2 + 1 ≤ l.length →
        m ∈ [i * 2 - 1, i * 2 + 1 - 1] → m < l.length := by
      intro m hle hm
      simp only [List.mem_cons, List.not_mem_nil, or_false] at hm
      rcases hm with hm | hm <;> omega
    split at hk
    · rename_i hsw
      rw [Bool.and_eq_true, decide_eq_true_eq] at hsw
      obtain ⟨hble, _⟩ := hsw
      have hib : i < biggerChild cmp l i := by rcases hbcases with h | h <;> omega
      simp only [List.mem_append, List.mem_cons, List.not_mem_nil, or_false] at hk
      rcases hk with (hk | hk) | hk
      · split at hk
        · rename_i hle
          exact hacc1 k hle (by simpa using hk)
        · simp at hk
      · rcases hk with hk | hk <;> omega
      · have := pdAccF_bounds cmp fuel (swapIdx l (i - 1) (biggerChild cmp l i - 1))
          (biggerChild cmp l i) (by omega) k hk
        rw [length_swapIdx] at this
        exact this
    · split at hk
      · rename_i hble
        simp only [List.mem_append, List.mem_cons, List.not_mem_nil, or_false] at hk
        have hib : i < biggerChild cmp l i := by rcases hbcases with h | h <;> omega
        rcases hk with hk | hk
        · split at hk
          · rename_i hle
            exact hacc1 k hle (by simpa using hk)
          · simp at hk
        · rcases hk with hk | hk <;> omega
      · split at hk
        · rename_i hle
          exact hacc1 k hle (by simpa using hk)
        · simp at hk

theorem pdAccF_nil (cmp : α → α → Bool) :
    ∀ (fuel : Nat) (i : Nat), 1 ≤ i → pdAccF cmp fuel ([] : List α) i = []
  | 0, _ => fun _ => rfl
  | fuel+1, i => by
    intro hi
    have hbcases := biggerChild_cases cmp ([] : List α) i
    have h1 : ¬((decide (biggerChild cmp ([] : List α) i ≤ ([] : List α).length) &&
        cmp (([] : List α).getD (i - 1) default)
          (([] : List α).getD (biggerChild cmp ([] : List α) i - 1) default)) = true) := by
      rw [Bool.and_eq_true, decide_eq_true_eq]
      intro hcon
      obtain ⟨hb, _⟩ := hcon
      simp only [List.length_nil] at hb
      rcases hbcases with h | h <;> omega
    have h2 : ¬ (biggerChild cmp ([] : List α) i ≤ ([] : List α).length) := by
      simp only [List.length_nil]
      rcases hbcases with h | h <;> omega
    have h3 : ¬ (i * 2 + 1 ≤ ([] : List α).length) := by
      simp only [List.length_nil]
      omega
    rw [pdAccF_succ_eq, if_neg h1, if_neg h2, if_neg h3]

/-- top is determined by the first element of the drain sequence. -/
theorem top_popAll (q : priority_queue α) :
    top q = match popAll q with
      | [] => Except.error "std:out_of_range"
      | x :: _ => Except.ok x := by
  obtain ⟨c, cm⟩ := q
  cases c with
  | nil => rfl
  | cons x xs =>
    have h : popAll (priority_queue.mk (x :: xs) cm) =
        x :: popAllF xs.length (pop (priority_queue.mk (x :: xs) cm)) := by
      exact popAllF_cons xs.length _ x xs rfl
    rw [h]
    rfl

theorem natLt_swo : IsSWO natLt := by
  refine ⟨fun a => ?_, fun a b c h1 h2 => ?_, fun a b c h1 h2 => ?_⟩ <;>
    simp only [natLt, decide_eq_true_eq, decide_eq_false_iff_not] at * <;> omega

theorem natGt_swo : IsSWO natGt := by
  refine ⟨fun a => ?_, fun a b c h1 h2 => ?_, fun a b c h1 h2 => ?_⟩ <;>
    simp only [natGt, decide_eq_true_eq, decide_eq_false_iff_not] at * <;> omega

theorem natLt_antisymm (a b : Nat) (h1 : natLt a b = false) (h2 : natLt b a = false) :
    a = b := by
  simp only [natLt, decide_eq_false_iff_not] at h1 h2
  omega

theorem isHeap_two (cmp : α → α → Bool) (x y : α) (h : cmp x y = false) :
    isHeap cmp [x, y] := by
  intro j hj c hc hcle
  simp only [List.length_cons, List.length_nil] at hcle
  have hjc : j = 1 ∧ c = 2 := by rcases hc with h2 | h2 <;> omega
  obtain ⟨hj1, hc2⟩ := hjc
  subst hj1
  subst hc2
  exact h

theorem isHeap_three (cmp : α → α → Bool) (x y z : α) (h1 : cmp x y = false)
    (h2 : cmp x z = false) : isHeap cmp [x, y, z] := by
  intro j hj c hc hcle
  simp only [List.length_cons, List.length_nil] at hcle
  have hjc : j = 1 ∧ (c = 2 ∨ c = 3) := by rcases hc with h3 | h3 <;> omega
  obtain ⟨hj1, hc23⟩ := hjc
  subst hj1
  rcases hc23 with hc2 | hc2 <;> subst hc2
  · exact h1
  · exact h2

/-! ### Claim theorems -/

/-- Claim C1: for every sequence of push and pop calls starting from an empty
priority_queue with a strict-weak-order comparator, the heap invariant holds
after each call: no parent at a valid 1-based index ranks strictly below an
existing child under the configured ordering. -/
theorem C1_heap_invariant_push_pop (cmp : α → α → Bool) (hswo : IsSWO cmp)
    (ops : List (Op α)) : isHeap cmp (runOps cmp ops).container := by
  obtain ⟨hirr, htr, hneg⟩ := hswo
  exact (foldl_applyOp_spec cmp hirr htr hneg ops (ctorDefault cmp) rfl
    (isHeap_nil cmp)).2

/-- Witness for C1 at a concrete operation sequence over Nat. -/
theorem C1_heap_invariant_push_pop_witness :
    isHeap natLt (runOps natLt
      [Op.push 5, Op.push 3, Op.push 8, Op.pop, Op.push 1, Op.pop]).container :=
  C1_heap_invariant_push_pop natLt natLt_swo
    [Op.push 5, Op.push 3, Op.push 8, Op.pop, Op.push 1, Op.pop]

/-- Claim C2: draining (top then pop until empty) a priority_queue built by
pushing a multiset of elements produces exactly that multiset, as a sequence
in which no element ranks strictly below any later element under the
ordering predicate (non-increasing order; with an inverted ordering the same
statement reads as non-decreasing order). -/
theorem C2_extraction_sorted (cmp : α → α → Bool) (hswo : IsSWO cmp)
    (l : List α) :
    List.Perm (popAll (ctorRange cmp l)) l ∧
    List.Pairwise (fun a b => cmp a b = false) (popAll (ctorRange cmp l)) := by
  obtain ⟨hirr, htr, hneg⟩ := hswo
  obtain ⟨hcm, hheap, hperm⟩ := ctorRange_spec cmp hirr htr hneg l
  obtain ⟨p1, p2⟩ := popAll_spec cmp hirr htr hneg
    (ctorRange cmp l).container.length (ctorRange cmp l) rfl hcm hheap
  exact ⟨p1.trans hperm, p2⟩

/-- Witness for C2 at the input multiset of the specification. -/
theorem C2_extraction_sorted_witness :
    List.Perm (popAll (ctorRange natLt [5, 3, 8, 1, 9, 2])) [5, 3, 8, 1, 9, 2] ∧
    List.Pairwise (fun a b => natLt a b = false)
      (popAll (ctorRange natLt [5, 3, 8, 1, 9, 2])) :=
  C2_extraction_sorted natLt natLt_swo [5, 3, 8, 1, 9, 2]

/-- Counterexample to the general part of claim C3 as stated: under the
spec's comparator contract alone (a strict weak ordering), the push-built
and bulk-heapified constructions of the same multiset are not observationally
equivalent under top and pop. With the keys-only ordering on pairs (a strict
weak ordering that is not antisymmetric) and the multiset
(1,0), (1,1), (2,2), (2,3), the push-built queue drains as
(2,2), (2,3), (1,0), (1,1) while the bulk-heapified queue drains as
(2,3), (2,2), (1,1), (1,0), and already their top values differ. -/
theorem C3_counterexample :
    IsSWO pairLt ∧
    popAll (ctorRange pairLt [(1, 0), (1, 1), (2, 2), (2, 3)]) =
      [(2, 2), (2, 3), (1, 0), (1, 1)] ∧
    popAll (ctorBulkMove pairLt [(1, 0), (1, 1), (2, 2), (2, 3)]) =
      [(2, 3), (2, 2), (1, 1), (1, 0)] ∧
    popAll (ctorRange pairLt [(1, 0), (1, 1), (2, 2), (2, 3)]) ≠
      popAll (ctorBulkMove pairLt [(1, 0), (1, 1), (2, 2), (2, 3)]) ∧
    top (ctorRange pairLt [(1, 0), (1, 1), (2, 2), (2, 3)]) ≠
      top (ctorBulkMove pairLt [(1, 0), (1, 1), (2, 2), (2, 3)]) := by
  have e1 : popAll (ctorRange pairLt [(1, 0), (1, 1), (2, 2), (2, 3)]) =
      [(2, 2), (2, 3), (1, 0), (1, 1)] := by decide
  have e2 : popAll (ctorBulkMove pairLt [(1, 0), (1, 1), (2, 2), (2, 3)]) =
      [(2, 3), (2, 2), (1, 1), (1, 0)] := by decide
  have hswo : IsSWO pairLt := by
    refine ⟨fun a => ?_, fun a b c h1 h2 => ?_, fun a b c h1 h2 => ?_⟩ <;>
      simp only [pairLt, decide_eq_true_eq, decide_eq_false_iff_not] at * <;> omega
  refine ⟨hswo, e1, e2, by rw [e1, e2]; simp, ?_⟩
  have t1 : top (ctorRange pairLt [(1, 0), (1, 1), (2, 2), (2, 3)]) =
      Except.ok (2, 2) := by
    rw [top_popAll, e1]
  have t2 : top (ctorBulkMove pairLt [(1, 0), (1, 1), (2, 2), (2, 3)]) =
      Except.ok (2, 3) := by
    rw [top_popAll, e2]
  rw [t1, t2]
  simp

/-- Claim C3 as amended: for the input 5, 3, 8, 1, 9, 2 under the default
less-than ordering, the push-one-at-a-time construction and the bulk-heapify
construction have identical top values and identical full pop sequences,
namely 9, 8, 5, 3, 2, 1; and the general push-vs-bulk observational
equivalence under top and pop holds for every strict-weak-order comparator
that is additionally antisymmetric (equivalent elements are equal) - the
restriction the counterexample above forces, automatic for total orders such
as the integer orderings used by the spec. -/
theorem C3_construction_equivalence :
    (popAll (ctorRange natLt [5, 3, 8, 1, 9, 2]) = [9, 8, 5, 3, 2, 1] ∧
      popAll (ctorBulkMove natLt [5, 3, 8, 1, 9, 2]) = [9, 8, 5, 3, 2, 1] ∧
      top (ctorRange natLt [5, 3, 8, 1, 9, 2]) = Except.ok 9 ∧
      top (ctorBulkMove natLt [5, 3, 8, 1, 9, 2]) = Except.ok 9) ∧
    (∀ {β : Type} [Inhabited β] (cmp : β → β → Bool), IsSWO cmp →
      (∀ a b, cmp a b = false → cmp b a = false → a = b) →
      ∀ l : List β, popAll (ctorRange cmp l) = popAll (ctorBulkMove cmp l) ∧
        top (ctorRange cmp l) = top (ctorBulkMove cmp l)) := by
  constructor
  · have e1 : popAll (ctorRange natLt [5, 3, 8, 1, 9, 2]) = [9, 8, 5, 3, 2, 1] := by
      decide
    have e2 : popAll (ctorBulkMove natLt [5, 3, 8, 1, 9, 2]) = [9, 8, 5, 3, 2, 1] := by
      decide
    refine ⟨e1, e2, ?_, ?_⟩
    · rw [top_popAll, e1]
    · rw [top_popAll, e2]
  · intro β _ cmp hswo hanti l
    obtain ⟨hirr, htr, hneg⟩ := hswo
    obtain ⟨hcm1, hheap1, hperm1⟩ := ctorRange_spec cmp hirr htr hneg l
    obtain ⟨hheap2, hperm2⟩ := heapify_spec cmp hirr htr hneg l
    have hcm2 : (ctorBulkMove cmp l).compare = cmp := rfl
    have hcont2 : (ctorBulkMove cmp l).container = heapify cmp l := rfl
    obtain ⟨q1perm, q1pair⟩ := popAll_spec cmp hirr htr hneg
      (ctorRange cmp l).container.length (ctorRange cmp l) rfl hcm1 hheap1
    obtain ⟨q2perm, q2pair⟩ := popAll_spec cmp hirr htr hneg
      (ctorBulkMove cmp l).container.length (ctorBulkMove cmp l) rfl hcm2
      (by rw [hcont2]; exact hheap2)
    have hq2l : List.Perm (ctorBulkMove cmp l).container l := by
      rw [hcont2]
      exact hperm2
    have hpp : List.Perm (popAll (ctorRange cmp l)) (popAll (ctorBulkMove cmp l)) :=
      (q1perm.trans hperm1).trans (q2perm.trans hq2l).symm
    haveI : IsAntisymm β (fun a b => cmp a b = false) := ⟨hanti⟩
    have heq : popAll (ctorRange cmp l) = popAll (ctorBulkMove cmp l) :=
      List.eq_of_perm_of_sorted hpp q1pair q2pair
    refine ⟨heq, ?_⟩
    rw [top_popAll (ctorRange cmp l), top_popAll (ctorBulkMove cmp l), heq]

/-- Witness for the general part of C3 at a concrete multiset with repeats. -/
theorem C3_construction_equivalence_witness :
    popAll (ctorRange natLt [2, 1, 2]) = popAll (ctorBulkMove natLt [2, 1, 2]) ∧
    top (ctorRange natLt [2, 1, 2]) = top (ctorBulkMove natLt [2, 1, 2]) :=
  C3_construction_equivalence.2 natLt natLt_swo natLt_antisymm [2, 1, 2]

/-- Counterexample to claim C4 as stated: the copy constructor initialises
the comparator from its explicit argument (default Compare()), never from
the source queue, and performs no re-heapify; hence copying a valid less-than
max-heap while supplying a greater-than ordering yields a queue whose
container violates the heap invariant under its own (new) ordering. -/
theorem C4_counterexample :
    isHeap natLt (priority_queue.mk [2, 1] natLt).container ∧
    (ctorCopy (priority_queue.mk [2, 1] natLt) natGt).container =
      (priority_queue.mk [2, 1] natLt).container ∧
    (ctorCopy (priority_queue.mk [2, 1] natLt) natGt).compare = natGt ∧
    ¬ isHeap natGt (ctorCopy (priority_queue.mk [2, 1] natLt) natGt).container := by
  refine ⟨isHeap_two natLt 2 1 rfl, rfl, rfl, ?_⟩
  intro h
  have hcon := h 1 (by omega) 2 (Or.inl rfl) (by decide)
  exact absurd hcon (by decide)

/-- Claim C4 as amended: copy construction duplicates the storage and move
construction transfers it; the comparator of the new queue is the supplied
one (a default-constructed instance when omitted, never the source's
comparator object); no re-heapify pass is run; and the constructed queue
satisfies the heap invariant under its ordering whenever that ordering
agrees with the source's ordering (in particular for stateless default
comparator types, where the two are indistinguishable). -/
theorem C4_copy_move_amended (rhs : priority_queue α) (c : α → α → Bool) :
    (ctorCopy rhs c).container = rhs.container ∧
    (ctorMove rhs c).container = rhs.container ∧
    (ctorCopy rhs c).compare = c ∧ (ctorMove rhs c).compare = c ∧
    ((∀ a b, c a b = rhs.compare a b) → isHeap rhs.compare rhs.container →
      isHeap c (ctorCopy rhs c).container ∧
        isHeap c (ctorMove rhs c).container) := by
  refine ⟨rfl, rfl, rfl, rfl, fun hcc hq => ?_⟩
  have hceq : c = rhs.compare := funext fun a => funext fun b => hcc a b
  subst hceq
  exact ⟨hq, hq⟩

/-- Witness for the amended C4 at a concrete source heap. -/
theorem C4_copy_move_amended_witness :
    isHeap natLt (ctorCopy (priority_queue.mk [5, 3] natLt) natLt).container ∧
    isHeap natLt (ctorMove (priority_queue.mk [5, 3] natLt) natLt).container :=
  (C4_copy_move_amended (priority_queue.mk [5, 3] natLt) natLt).2.2.2.2
    (fun a b => rfl) (isHeap_two natLt 5 3 rfl)

/-- Claim C5: top on a non-empty queue returns (read-only, with no state
change possible in this pure model) the element at storage position 0; top
on an empty queue fails with the out-of-range error and returns no value.
In this embedding top is the only operation whose result type carries an
error at all: pop, push, size, empty and the constructors are total
functions into plain values. -/
theorem C5_top_behavior (c : α → α → Bool) (q : priority_queue α) (x : α)
    (xs : List α) (h : q.container = x :: xs) :
    top (priority_queue.mk ([] : List α) c) = Except.error "std:out_of_range" ∧
    top q = Except.ok x := by
  refine ⟨rfl, ?_⟩
  obtain ⟨cc, cm⟩ := q
  simp only at h
  subst h
  rfl

/-- Witness for C5 at concrete queues. -/
theorem C5_top_behavior_witness :
    top (priority_queue.mk ([] : List Nat) natLt) =
      Except.error "std:out_of_range" ∧
    top (priority_queue.mk [7] natLt) = Except.ok 7 :=
  C5_top_behavior natLt (priority_queue.mk [7] natLt) 7 [] rfl

/-- Claim C6: pop on an empty queue is a silent no-op (state unchanged, no
error); on a non-empty queue pop swaps the first and last elements, drops
the last, percolates down from the root (the stated equation), shrinks the
size by exactly one, removes exactly the old root element from the multiset,
and restores the heap invariant. -/
theorem C6_pop_behavior (q : priority_queue α) :
    (q.container = [] → pop q = q) ∧
    (q.container ≠ [] →
      (pop q).container =
        (percolateDown q.compare
          ((swapIdx q.container 0 (q.container.length - 1)).dropLast) 1).1 ∧
      (pop q).container.length = q.container.length - 1 ∧
      (pop q).compare = q.compare ∧
      List.Perm (q.container.getD 0 default :: (pop q).container) q.container) ∧
    (IsSWO q.compare → isHeap q.compare q.container →
      isHeap q.compare (pop q).container) := by
  refine ⟨pop_empty q, fun h => ⟨pop_container_eq q h, pop_length q h,
    pop_compare q, pop_perm q h⟩, fun hswo hq => ?_⟩
  obtain ⟨hirr, htr, hneg⟩ := hswo
  exact pop_isHeap q hirr htr hneg hq

/-- Witness for C6 at concrete queues. -/
theorem C6_pop_behavior_witness :
    pop (priority_queue.mk ([] : List Nat) natLt) =
      priority_queue.mk ([] : List Nat) natLt ∧
    (pop (priority_queue.mk [9, 4, 2] natLt)).container.length = 2 ∧
    isHeap natLt (pop (priority_queue.mk [9, 4, 2] natLt)).container :=
  ⟨(C6_pop_behavior (priority_queue.mk ([] : List Nat) natLt)).1 rfl,
   ((C6_pop_behavior (priority_queue.mk [9, 4, 2] natLt)).2.1 (by simp)).2.1,
   (C6_pop_behavior (priority_queue.mk [9, 4, 2] natLt)).2.2 natLt_swo
     (isHeap_three natLt 9 4 2 rfl rfl)⟩

/-- Claim C7: supplying a greater-than ordering inverts the heap to a
min-heap: for the input 5, 3, 8, 1, 9, 2 the full pop sequence is
1, 2, 3, 5, 8, 9, the reverse of the max-heap extraction order for the same
multiset; and in general a heap built with the greater-than ordering on Nat
drains in non-decreasing order. -/
theorem C7_min_heap_inversion :
    popAll (ctorRange natGt [5, 3, 8, 1, 9, 2]) = [1, 2, 3, 5, 8, 9] ∧
    popAll (ctorRange natLt [5, 3, 8, 1, 9, 2]) = [9, 8, 5, 3, 2, 1] ∧
    popAll (ctorRange natGt [5, 3, 8, 1, 9, 2]) =
      (popAll (ctorRange natLt [5, 3, 8, 1, 9, 2])).reverse ∧
    ∀ l : List Nat, List.Pairwise (fun a b => natGt a b = false)
      (popAll (ctorRange natGt l)) := by
  refine ⟨by decide, by decide, by decide, fun l => ?_⟩
  obtain ⟨hirr, htr, hneg⟩ := natGt_swo
  obtain ⟨hcm, hheap, _⟩ := ctorRange_spec natGt hirr htr hneg l
  exact (popAll_spec natGt hirr htr hneg
    (ctorRange natGt l).container.length (ctorRange natGt l) rfl hcm hheap).2

/-- Claim C8: the free swap function exchanges the full state (container and
comparator) of the two queues; on the concrete heaps with contents 10, 4 and
7, the exchanged queues have tops 7 and 10 and sizes 1 and 2. -/
theorem C8_swap_exchanges :
    (∀ {β : Type} (a b : priority_queue β), swap a b = (b, a)) ∧
    top (swap (ctorRange natLt [10, 4]) (ctorRange natLt [7])).1 =
      Except.ok 7 ∧
    size (swap (ctorRange natLt [10, 4]) (ctorRange natLt [7])).1 = 1 ∧
    top (swap (ctorRange natLt [10, 4]) (ctorRange natLt [7])).2 =
      Except.ok 10 ∧
    size (swap (ctorRange natLt [10, 4]) (ctorRange natLt [7])).2 = 2 :=
  ⟨fun _ _ => rfl, rfl, rfl, rfl, rfl⟩

/-- Claim C9: every storage access performed by percolateDown at a 1-based
start index of at least 1 is within bounds (each accessed 0-based index is
smaller than the container length, thanks to the guards indexRight <= size
and indexBigger <= size), and percolateDown at index 1 on an empty container
performs no element access at all. -/
theorem C9_percolate_access_bounds (cmp : α → α → Bool) :
    (∀ (fuel : Nat) (l : List α) (i : Nat), 1 ≤ i →
        ∀ k ∈ pdAccF cmp fuel l i, k < l.length) ∧
    (∀ (fuel i : Nat), 1 ≤ i → pdAccF cmp fuel ([] : List α) i = []) :=
  ⟨pdAccF_bounds cmp, pdAccF_nil cmp⟩

/-- Witness for C9: a concrete in-bounds access and the empty no-access case. -/
theorem C9_percolate_access_bounds_witness :
    pdAccF natLt 3 ([] : List Nat) 1 = [] ∧ 1 < [3, 1, 2].length :=
  ⟨(C9_percolate_access_bounds natLt).2 3 1 (by decide),
   (C9_percolate_access_bounds natLt).1 4 [3, 1, 2] 1 (by decide) 1 (by decide)⟩

/-- Claim C10: percolateDown terminates: its recursion moves to a strictly
larger index bounded by the size, so its result is independent of the fuel
once the fuel covers the container size; likewise push's halving ancestor
loop and the repeated pop used to drain the queue are fuel-independent past
their natural bounds, and heapify's countdown loop is structurally
terminating by construction. -/
theorem C10_termination (cmp : α → α → Bool) :
    (∀ (fuel₁ fuel₂ : Nat) (l : List α) (i : Nat), 1 ≤ i → 1 ≤ fuel₁ →
        l.length + 1 ≤ fuel₁ + i → 1 ≤ fuel₂ → l.length + 1 ≤ fuel₂ + i →
        percolateDownF cmp fuel₁ l i = percolateDownF cmp fuel₂ l i) ∧
    (∀ (fuel₁ fuel₂ : Nat) (l : List α) (index : Nat), index + 1 ≤ fuel₁ →
        index + 1 ≤ fuel₂ →
        pushLoopF cmp fuel₁ l index = pushLoopF cmp fuel₂ l index) ∧
    (∀ (fuel₁ fuel₂ : Nat) (q : priority_queue α), q.container.length ≤ fuel₁ →
        q.container.length ≤ fuel₂ → popAllF fuel₁ q = popAllF fuel₂ q) :=
  ⟨fun f1 f2 l i hi h1 h2 h3 h4 => pdF_fuel_indep cmp f1 f2 l i hi h1 h2 h3 h4,
   fun f1 f2 l idx h1 h2 => pushLoopF_fuel_indep cmp f1 f2 l idx h1 h2,
   fun f1 f2 q h1 h2 => popAllF_fuel_indep f1 f2 q h1 h2⟩

/-- Witness for C10 at concrete fuels above the bounds. -/
theorem C10_termination_witness :
    percolateDownF natLt 7 [5, 2, 9] 1 = percolateDownF natLt 4 [5, 2, 9] 1 ∧
    pushLoopF natLt 3 [4, 8] 1 = pushLoopF natLt 2 [4, 8] 1 ∧
    popAllF 5 (priority_queue.mk [3, 7] natLt) =
      popAllF 2 (priority_queue.mk [3, 7] natLt) :=
  ⟨(C10_termination natLt).1 7 4 [5, 2, 9] 1 (by decide) (by decide) (by decide)
      (by decide) (by decide),
   (C10_termination natLt).2.1 3 2 [4, 8] 1 (by decide) (by decide),
   (C10_termination natLt).2.2 5 2 (priority_queue.mk [3, 7] natLt) (by decide)
      (by decide)⟩

end custom
